import Mathlib

/-!
Verification of the authenticated symmetric file-encryption core of the
image-encryption tool.

The repository source (`gui_image_encryption_tool.py`) delegates the actual
cryptography to the external Fernet library: `_generate_key`, `_load_key`,
`_get_fernet` manage the key file, and `encrypt_file` / `decrypt_file` wrap
`cipher.encrypt` / `cipher.decrypt` in GUI control flow.  The key-store and
the GUI control flow are embedded here directly from the source; the cipher
algorithm itself (seal/open, token format, error taxonomy) is not in the
repository and is modelled from the specification.

Bytes are modelled as natural numbers (values below 256 in well-formed data);
byte strings are lists of naturals.  Fallible operations return `Except` or
`Option`.
-/

/-- Modelled from the spec: the error taxonomy of §7 (the Fernet library's
exceptions are not part of the repository source). -/
inductive CipherError where
  | StorageError : CipherError
  | CorruptKeyError : CipherError
  | AuthenticationError : CipherError
  | FormatError : CipherError
  | ImplementationInvariantError : CipherError
deriving DecidableEq, Repr

deriving instance DecidableEq for Except

/-- Modelled from the spec: the cipher block size (16 bytes, CBC mode). -/
def BLOCK_SIZE : Nat := 16

/-- Modelled from the spec: the scheme's declared version marker (1 byte). -/
def VERSION : Nat := 128

/-- Modelled from the spec: PKCS7 padding length for a plaintext of length
`n`: between 1 and 16 bytes, bringing the total to a multiple of 16. -/
def padLen (n : Nat) : Nat := BLOCK_SIZE - n % BLOCK_SIZE

/-- Modelled from the spec: PKCS7-pad a plaintext to a multiple of the block
size; each padding byte holds the padding length. -/
def pad (p : List Nat) : List Nat :=
  p ++ List.replicate (padLen p.length) (padLen p.length)

/-- Modelled from the spec: strip and validate PKCS7 padding.  Fails on an
empty buffer, a padding byte outside 1..16, or mismatched padding bytes. -/
def unpad (c : List Nat) : Option (List Nat) :=
  match c.getLast? with
  | none => none
  | some n =>
    if n = 0 ∨ BLOCK_SIZE < n ∨ c.length < n then none
    else if c.drop (c.length - n) = List.replicate n n then
      some (c.take (c.length - n))
    else none

/-- Fuel-driven worker for `chunks`; the fuel is an upper bound on the input
length, so the `0, _ :: _` arm is never reached in `chunks`. -/
def chunksAux : Nat → List Nat → List (List Nat)
  | _, [] => []
  | 0, _ :: _ => []
  | fuel + 1, x :: xs =>
    (x :: xs).take BLOCK_SIZE :: chunksAux fuel ((x :: xs).drop BLOCK_SIZE)

/-- Split a byte string into consecutive 16-byte blocks (the last block may
be short when the input is not block-aligned). -/
def chunks (l : List Nat) : List (List Nat) := chunksAux l.length l

/-- Bytewise XOR of two byte strings (truncates to the shorter). -/
def xorBytes (a b : List Nat) : List Nat :=
  List.zipWith (fun x y => x ^^^ y) a b

/-- Modelled from the spec: the 8-byte big-endian encoding of the creation
timestamp. -/
def tsBytes (ts : Nat) : List Nat :=
  (List.range 8).map (fun i => ts / 256 ^ (7 - i) % 256)

/-- The cryptographic primitives the scheme is built from.  The block cipher
and HMAC-SHA256 live in the external library; the scheme is parameterized
over them, with their algebraic requirements stated as hypotheses of the
theorems. -/
structure Primitives where
  encBlock : List Nat → List Nat → List Nat
  decBlock : List Nat → List Nat → List Nat
  mac : List Nat → List Nat → List Nat

/-- Modelled from the spec: CBC-mode encryption of a list of blocks; each
plaintext block is XORed with the previous ciphertext block (the nonce for
the first) before the block cipher is applied. -/
def cbcEnc (P : Primitives) (ek : List Nat) (prev : List Nat) :
    List (List Nat) → List (List Nat)
  | [] => []
  | b :: bs =>
    let c := P.encBlock ek (xorBytes prev b)
    c :: cbcEnc P ek c bs

/-- Modelled from the spec: CBC-mode decryption of a list of blocks. -/
def cbcDec (P : Primitives) (ek : List Nat) (prev : List Nat) :
    List (List Nat) → List (List Nat)
  | [] => []
  | c :: cs => xorBytes prev (P.decBlock ek c) :: cbcDec P ek c cs

/-- Modelled from the spec: a Key splits into a signing half and an
encryption half (16 bytes each of the 32-byte secret). -/
structure Key where
  sign : List Nat
  enc : List Nat
deriving DecidableEq, Repr

/-- A key of the right shape: both halves 16 bytes long. -/
def Key.Valid (k : Key) : Prop := k.sign.length = 16 ∧ k.enc.length = 16

instance (k : Key) : Decidable k.Valid := by
  unfold Key.Valid; infer_instance

/-- Modelled from the spec: `seal` — pad the plaintext, CBC-encrypt it under
the fresh nonce, build the header `version ‖ timestamp ‖ nonce ‖ ciphertext`,
and append the HMAC tag over the header computed with the signing half. -/
def sealTok (P : Primitives) (k : Key) (ts : Nat) (nonce : List Nat)
    (p : List Nat) : List Nat :=
  let ct := (cbcEnc P k.enc nonce (chunks (pad p))).flatten
  let body := VERSION :: tsBytes ts ++ nonce ++ ct
  body ++ P.mac k.sign body

/-- Modelled from the spec: `open` — reject structurally malformed tokens and
unrecognized versions with `FormatError` before any cryptographic work;
verify the HMAC tag and fail with `AuthenticationError` on mismatch; only
then CBC-decrypt and strip padding, reporting bad padding after a valid tag
as `ImplementationInvariantError`. -/
def openTok (P : Primitives) (k : Key) (t : List Nat) :
    Except CipherError (List Nat) :=
  if t.length < 57 ∨ (t.length - 57) % BLOCK_SIZE ≠ 0 then
    .error .FormatError
  else if t.headD 0 ≠ VERSION then
    .error .FormatError
  else if P.mac k.sign (t.take (t.length - 32)) ≠ t.drop (t.length - 32) then
    .error .AuthenticationError
  else
    let nonce := (t.drop 9).take 16
    let ct := (t.drop 25).take (t.length - 57)
    match unpad (cbcDec P k.enc nonce (chunks ct)).flatten with
    | some p => .ok p
    | none => .error .ImplementationInvariantError

/-- A concrete toy instantiation of the primitives, used to evaluate the
scheme on concrete inputs: the "block cipher" XORs with the key and the
"MAC" is a 32-byte polynomial checksum. -/
def toyPrims : Primitives where
  encBlock := fun ek b => xorBytes ek b
  decBlock := fun ek c => xorBytes ek c
  mac := fun sk m =>
    (List.range 32).map
      (fun j => (sk ++ m).foldl (fun a b => (a * (j + 2) + b + 1) % 256) 7)

/-- Key utilities, embedded from the source: `_load_key` returns the stored
key if one exists and otherwise generates a fresh one, persists it and
returns it (`_generate_key`).  The key file is modelled as an optional byte
string and the entropy source as an explicit `fresh` argument. -/
def get_or_create_key (fresh : List Nat) (store : Option (List Nat)) :
    List Nat × Option (List Nat) :=
  match store with
  | none => (fresh, some fresh)
  | some k => (k, store)

/-- Embedded from the source (`_get_fernet` via the library constructor):
obtain the key from the store — creating one if absent — and build a cipher
key from it.  Modelled from the spec: the library's key validation (persisted
content of the wrong length/shape signals `CorruptKeyError`) is not in the
repository source; a valid key blob is 32 bytes, split into a 16-byte signing
half and a 16-byte encryption half. -/
def getCipherKey (fresh : List Nat) (store : Option (List Nat)) :
    Except CipherError Key × Option (List Nat) :=
  let (kb, store1) := get_or_create_key fresh store
  (if kb.length = 32 then .ok ⟨kb.take 16, kb.drop 16⟩
   else .error .CorruptKeyError, store1)

/-- The decryption path of the source (`decrypt_file` lines 134-136): obtain
the cipher from the key store, then decrypt the token; a key failure aborts
before any decryption. -/
def decryptWithStore (P : Primitives) (fresh : List Nat)
    (store : Option (List Nat)) (token : List Nat) :
    Except CipherError (List Nat) × Option (List Nat) :=
  let (r, store1) := getCipherKey fresh store
  (match r with
   | .error e => .error e
   | .ok key => openTok P key token, store1)

/-- Outcome of one run of `encrypt_file` or `decrypt_file`: the function
always returns normally — either silently (a cancelled dialog), with a
success dialog after writing the destination, or with an error dialog and no
write. -/
inductive GuiResult where
  | cancelled : GuiResult
  | success : List Nat → GuiResult
  | failure : String ⊕ CipherError → GuiResult
deriving DecidableEq, Repr

/-- The I/O environment of one GUI run: the source-file dialog (`none` =
cancelled, otherwise the outcome of reading the chosen file), the
destination dialog, and the outcome of writing the destination. -/
structure GuiEnv where
  srcChoice : Option (Except String (List Nat))
  dstChoice : Option Unit
  writeRes : Except String Unit

/-- Embedded from the source, `encrypt_file` (lines 98-122): ask for a source
file and return silently on cancel; inside the try-block read it, obtain the
cipher (key-store side effect), encrypt, ask for a destination (returning
with no write on cancel), and write; any raised error is caught and shown as
an error dialog.  Returns the outcome paired with the final key store. -/
def encrypt_file (P : Primitives) (env : GuiEnv) (fresh : List Nat)
    (ts : Nat) (nonce : List Nat) (store : Option (List Nat)) :
    GuiResult × Option (List Nat) :=
  match env.srcChoice with
  | none => (.cancelled, store)
  | some (.error e) => (.failure (.inl e), store)
  | some (.ok data) =>
    let (r, store1) := getCipherKey fresh store
    match r with
    | .error e => (.failure (.inr e), store1)
    | .ok key =>
      let encrypted := sealTok P key ts nonce data
      match env.dstChoice with
      | none => (.cancelled, store1)
      | some _ =>
        match env.writeRes with
        | .error e => (.failure (.inl e), store1)
        | .ok _ => (.success encrypted, store1)

/-- Embedded from the source, `decrypt_file` (lines 125-149): ask for an
encrypted file and return silently on cancel; inside the try-block read it,
obtain the cipher (key-store side effect), decrypt — a failed authentication
raises and is caught as an error dialog — then ask for a destination
(returning with no write on cancel) and write the plaintext. -/
def decrypt_file (P : Primitives) (env : GuiEnv) (fresh : List Nat)
    (store : Option (List Nat)) : GuiResult × Option (List Nat) :=
  match env.srcChoice with
  | none => (.cancelled, store)
  | some (.error e) => (.failure (.inl e), store)
  | some (.ok data) =>
    let (r, store1) := getCipherKey fresh store
    match r with
    | .error e => (.failure (.inr e), store1)
    | .ok key =>
      match openTok P key data with
      | .error e => (.failure (.inr e), store1)
      | .ok decrypted =>
        match env.dstChoice with
        | none => (.cancelled, store1)
        | some _ =>
          match env.writeRes with
          | .error e => (.failure (.inl e), store1)
          | .ok _ => (.success decrypted, store1)

/-- Flip bit `i % 8` of byte `i / 8` of a byte string (identity when the
byte index is out of range). -/
def flipBit (i : Nat) (t : List Nat) : List Nat :=
  t.set (i / 8) ((t.getD (i / 8) 0) ^^^ 2 ^ (i % 8))

/-- The ciphertext field a seal call produces. -/
def tokenCt (P : Primitives) (k : Key) (nonce p : List Nat) : List Nat :=
  (cbcEnc P k.enc nonce (chunks (pad p))).flatten

/-- The authenticated header of a token: everything but the tag. -/
def tokenBody (P : Primitives) (k : Key) (ts : Nat) (nonce p : List Nat) :
    List Nat :=
  VERSION :: tsBytes ts ++ nonce ++ tokenCt P k nonce p

theorem sealTok_eq_body (P : Primitives) (k : Key) (ts : Nat)
    (nonce p : List Nat) :
    sealTok P k ts nonce p =
      tokenBody P k ts nonce p ++ P.mac k.sign (tokenBody P k ts nonce p) :=
  rfl

theorem xorBytes_length (a b : List Nat) :
    (xorBytes a b).length = min a.length b.length := by
  simp [xorBytes]

theorem xorBytes_self_cancel (a b : List Nat) (h : b.length ≤ a.length) :
    xorBytes a (xorBytes a b) = b := by
  induction a generalizing b with
  | nil =>
    cases b with
    | nil => rfl
    | cons x xs => simp at h
  | cons y ys ih =>
    cases b with
    | nil => rfl
    | cons x xs =>
      simp only [List.length_cons] at h
      simp only [xorBytes, List.zipWith_cons_cons]
      exact congrArg₂ _ (Nat.xor_cancel_left y x) (ih xs (by omega))

theorem xor_pow_ne_self (a r : Nat) : a ^^^ 2 ^ r ≠ a := by
  intro hc
  have h2 : (2 : Nat) ^ r ≠ 0 := by positivity
  have := congrArg (fun x => a ^^^ x) hc
  simp only [Nat.xor_cancel_left, Nat.xor_self] at this
  exact h2 this

theorem tsBytes_length (ts : Nat) : (tsBytes ts).length = 8 := by
  simp [tsBytes]

theorem padLen_pos (n : Nat) : 0 < padLen n := by
  have := Nat.mod_lt n (show 0 < 16 by norm_num)
  simp only [padLen, BLOCK_SIZE]
  omega

theorem padLen_le (n : Nat) : padLen n ≤ 16 := by
  simp only [padLen, BLOCK_SIZE]
  omega

theorem pad_length (p : List Nat) :
    (pad p).length = p.length + padLen p.length := by
  simp [pad]

theorem pad_length_mod (p : List Nat) : (pad p).length % 16 = 0 := by
  rw [pad_length]
  simp only [padLen, BLOCK_SIZE]
  omega

theorem pad_length_pos (p : List Nat) : 0 < (pad p).length := by
  rw [pad_length]
  have := padLen_pos p.length
  omega

theorem getLast?_replicate_of_pos (n : Nat) (x : Nat) (h : n ≠ 0) :
    (List.replicate n x).getLast? = some x := by
  induction n with
  | zero => exact absurd rfl h
  | succ m ih =>
    rw [List.replicate_succ']
    exact List.getLast?_concat _

theorem unpad_pad (p : List Nat) : unpad (pad p) = some p := by
  have hm1 := padLen_pos p.length
  have hm16 := padLen_le p.length
  have hgl : (pad p).getLast? = some (padLen p.length) := by
    unfold pad
    rw [List.getLast?_append_of_ne_nil, getLast?_replicate_of_pos _ _ (by omega)]
    simp only [ne_eq, List.replicate_eq_nil_iff]
    omega
  have hlen : (pad p).length = p.length + padLen p.length := pad_length p
  have hsub : p.length + padLen p.length - padLen p.length = p.length := by omega
  have hc1 : ¬(padLen p.length = 0 ∨ BLOCK_SIZE < padLen p.length ∨
      (pad p).length < padLen p.length) := by
    rw [hlen]
    simp only [BLOCK_SIZE]
    push_neg
    exact ⟨by omega, by omega, by omega⟩
  have hc2 : (pad p).drop ((pad p).length - padLen p.length) =
      List.replicate (padLen p.length) (padLen p.length) := by
    rw [hlen, hsub]
    unfold pad
    exact List.drop_left _ _
  unfold unpad
  rw [hgl]
  dsimp only
  rw [if_neg hc1, if_pos hc2, hlen, hsub]
  unfold pad
  rw [List.take_left]

theorem chunksAux_flatten (fuel : Nat) (l : List Nat) (h : l.length ≤ fuel) :
    (chunksAux fuel l).flatten = l := by
  induction fuel generalizing l with
  | zero =>
    cases l with
    | nil => rfl
    | cons x xs => simp at h
  | succ f ih =>
    cases l with
    | nil => rfl
    | cons x xs =>
      simp only [chunksAux, List.flatten_cons]
      rw [ih _ (by simp only [List.length_drop, BLOCK_SIZE]
                   simp only [List.length_cons] at h
                   simp only [List.length_cons]
                   omega)]
      exact List.take_append_drop _ _

theorem flatten_chunks (l : List Nat) : (chunks l).flatten = l :=
  chunksAux_flatten l.length l le_rfl

theorem chunksAux_mem_length (fuel : Nat) (l : List Nat) (h : l.length ≤ fuel)
    (hd : l.length % 16 = 0) : ∀ b ∈ chunksAux fuel l, b.length = 16 := by
  induction fuel generalizing l with
  | zero =>
    cases l with
    | nil => intro b hb; simp [chunksAux] at hb
    | cons x xs => simp at h
  | succ f ih =>
    cases l with
    | nil => intro b hb; simp [chunksAux] at hb
    | cons x xs =>
      intro b hb
      simp only [List.length_cons] at h hd
      have h16 : 16 ≤ xs.length + 1 := by omega
      simp only [chunksAux, List.mem_cons] at hb
      rcases hb with hb | hb
      · rw [hb]
        simp only [List.length_take, List.length_cons, BLOCK_SIZE]
        omega
      · refine ih _ ?_ ?_ b hb
        · simp only [List.length_drop, List.length_cons, BLOCK_SIZE]
          omega
        · simp only [List.length_drop, List.length_cons, BLOCK_SIZE]
          omega

theorem chunks_mem_length (l : List Nat) (hd : l.length % 16 = 0) :
    ∀ b ∈ chunks l, b.length = 16 :=
  chunksAux_mem_length l.length l le_rfl hd

theorem chunksAux_flatten_blocks (fuel : Nat) (L : List (List Nat))
    (h : ∀ b ∈ L, b.length = 16) (hf : L.flatten.length ≤ fuel) :
    chunksAux fuel L.flatten = L := by
  induction L generalizing fuel with
  | nil => cases fuel <;> rfl
  | cons b bs ih =>
    have hb : b.length = 16 := h b (List.mem_cons_self _ _)
    have hrest : ∀ x ∈ bs, x.length = 16 :=
      fun x hx => h x (List.mem_cons_of_mem _ hx)
    rw [List.flatten_cons] at hf ⊢
    simp only [List.length_append, hb] at hf
    cases fuel with
    | zero => omega
    | succ f =>
      cases b with
      | nil => simp at hb
      | cons y ys =>
        rw [List.cons_append, chunksAux, ← List.cons_append]
        simp only [BLOCK_SIZE]
        rw [List.take_left' hb, List.drop_left' hb]
        exact congrArg _ (ih f hrest (by omega))

theorem chunks_flatten_blocks (L : List (List Nat))
    (h : ∀ b ∈ L, b.length = 16) : chunks L.flatten = L :=
  chunksAux_flatten_blocks L.flatten.length L h le_rfl

theorem cbcEnc_length (P : Primitives) (ek prev : List Nat)
    (bs : List (List Nat)) : (cbcEnc P ek prev bs).length = bs.length := by
  induction bs generalizing prev with
  | nil => rfl
  | cons b rest ih => simp only [cbcEnc, List.length_cons, ih]

theorem cbcEnc_mem_length (P : Primitives) (ek prev : List Nat)
    (bs : List (List Nat))
    (hlen : ∀ b, b.length = 16 → (P.encBlock ek b).length = 16)
    (hprev : prev.length = 16) (hb : ∀ b ∈ bs, b.length = 16) :
    ∀ c ∈ cbcEnc P ek prev bs, c.length = 16 := by
  induction bs generalizing prev with
  | nil => intro c hc; simp [cbcEnc] at hc
  | cons b rest ih =>
    intro c hc
    have hb0 : b.length = 16 := hb b (List.mem_cons_self _ _)
    have hx : (xorBytes prev b).length = 16 := by
      rw [xorBytes_length, hprev, hb0]; omega
    have hc0 : (P.encBlock ek (xorBytes prev b)).length = 16 := hlen _ hx
    simp only [cbcEnc, List.mem_cons] at hc
    rcases hc with hc | hc
    · rw [hc]; exact hc0
    · exact ih _ hc0 (fun x hx => hb x (List.mem_cons_of_mem _ hx)) c hc

theorem cbcDec_cbcEnc (P : Primitives) (ek prev : List Nat)
    (bs : List (List Nat))
    (hdec : ∀ b, b.length = 16 → P.decBlock ek (P.encBlock ek b) = b)
    (hlen : ∀ b, b.length = 16 → (P.encBlock ek b).length = 16)
    (hprev : prev.length = 16) (hb : ∀ b ∈ bs, b.length = 16) :
    cbcDec P ek prev (cbcEnc P ek prev bs) = bs := by
  induction bs generalizing prev with
  | nil => rfl
  | cons b rest ih =>
    have hb0 : b.length = 16 := hb b (List.mem_cons_self _ _)
    have hx : (xorBytes prev b).length = 16 := by
      rw [xorBytes_length, hprev, hb0]; omega
    have hc0 : (P.encBlock ek (xorBytes prev b)).length = 16 := hlen _ hx
    simp only [cbcEnc, cbcDec]
    rw [hdec _ hx, xorBytes_self_cancel prev b (by omega)]
    exact congrArg _ (ih _ hc0 (fun x hx => hb x (List.mem_cons_of_mem _ hx)))

theorem flatten_length_blocks (L : List (List Nat))
    (h : ∀ b ∈ L, b.length = 16) : L.flatten.length = 16 * L.length := by
  induction L with
  | nil => rfl
  | cons b rest ih =>
    simp only [List.flatten_cons, List.length_append, List.length_cons,
      h b (List.mem_cons_self _ _),
      ih (fun x hx => h x (List.mem_cons_of_mem _ hx))]
    ring

theorem tokenCt_length (P : Primitives) (k : Key) (nonce p : List Nat)
    (hlen : ∀ b, b.length = 16 → (P.encBlock k.enc b).length = 16)
    (hn : nonce.length = 16) :
    (tokenCt P k nonce p).length = (pad p).length := by
  unfold tokenCt
  have hblocks : ∀ b ∈ chunks (pad p), b.length = 16 :=
    chunks_mem_length _ (pad_length_mod p)
  have hout : ∀ c ∈ cbcEnc P k.enc nonce (chunks (pad p)), c.length = 16 :=
    cbcEnc_mem_length P k.enc nonce _ hlen hn hblocks
  rw [flatten_length_blocks _ hout, cbcEnc_length]
  have := flatten_length_blocks _ hblocks
  rw [flatten_chunks] at this
  omega

theorem tokenCt_length_mod (P : Primitives) (k : Key) (nonce p : List Nat)
    (hlen : ∀ b, b.length = 16 → (P.encBlock k.enc b).length = 16)
    (hn : nonce.length = 16) :
    (tokenCt P k nonce p).length % 16 = 0 := by
  rw [tokenCt_length P k nonce p hlen hn]
  exact pad_length_mod p

theorem tokenBody_length (P : Primitives) (k : Key) (ts : Nat)
    (nonce p : List Nat) (hn : nonce.length = 16) :
    (tokenBody P k ts nonce p).length = 25 + (tokenCt P k nonce p).length := by
  simp only [tokenBody, List.length_cons, List.length_append,
    tsBytes_length, hn]

theorem tokenParse_length (ts8 nonce ct tag : List Nat)
    (h8 : ts8.length = 8) (h16 : nonce.length = 16) (h32 : tag.length = 32) :
    ((VERSION :: ts8 ++ nonce ++ ct) ++ tag).length = 57 + ct.length := by
  simp [h8, h16, h32]
  omega

theorem tokenParse_take (ts8 nonce ct tag : List Nat)
    (h8 : ts8.length = 8) (h16 : nonce.length = 16) :
    ((VERSION :: ts8 ++ nonce ++ ct) ++ tag).take (25 + ct.length) =
      VERSION :: ts8 ++ nonce ++ ct := by
  refine List.take_left' ?_
  simp [h8, h16]
  omega

theorem tokenParse_drop (ts8 nonce ct tag : List Nat)
    (h8 : ts8.length = 8) (h16 : nonce.length = 16) :
    ((VERSION :: ts8 ++ nonce ++ ct) ++ tag).drop (25 + ct.length) = tag := by
  refine List.drop_left' ?_
  simp [h8, h16]
  omega

theorem tokenParse_headD (ts8 nonce ct tag : List Nat) :
    ((VERSION :: ts8 ++ nonce ++ ct) ++ tag).headD 0 = VERSION := by
  simp

theorem tokenParse_nonce (ts8 nonce ct tag : List Nat)
    (h8 : ts8.length = 8) (h16 : nonce.length = 16) :
    (((VERSION :: ts8 ++ nonce ++ ct) ++ tag).drop 9).take 16 = nonce := by
  simp only [List.cons_append, List.append_assoc]
  rw [show (9 : Nat) = 8 + 1 by rfl, List.drop_succ_cons]
  rw [List.drop_left' h8]
  exact List.take_left' h16

theorem tokenParse_ct (ts8 nonce ct tag : List Nat)
    (h8 : ts8.length = 8) (h16 : nonce.length = 16) :
    (((VERSION :: ts8 ++ nonce ++ ct) ++ tag).drop 25).take ct.length = ct := by
  simp only [List.cons_append, List.append_assoc]
  rw [show (25 : Nat) = 24 + 1 by rfl, List.drop_succ_cons]
  rw [show (24 : Nat) = 8 + 16 by rfl, ← List.drop_drop]
  rw [List.drop_left' h8, List.drop_left' h16]
  exact List.take_left ct tag

theorem openTok_sealTok (P : Primitives) (k : Key) (ts : Nat)
    (nonce p : List Nat)
    (hdec : ∀ b, b.length = 16 → P.decBlock k.enc (P.encBlock k.enc b) = b)
    (hlen : ∀ b, b.length = 16 → (P.encBlock k.enc b).length = 16)
    (hmac : ∀ m, (P.mac k.sign m).length = 32)
    (hn : nonce.length = 16) :
    openTok P k (sealTok P k ts nonce p) = .ok p := by
  have h8 := tsBytes_length ts
  have hctlen : (tokenCt P k nonce p).length = (pad p).length :=
    tokenCt_length P k nonce p hlen hn
  have hctmod : (tokenCt P k nonce p).length % 16 = 0 := by
    rw [hctlen]; exact pad_length_mod p
  have h32 : (P.mac k.sign (tokenBody P k ts nonce p)).length = 32 := hmac _
  rw [sealTok_eq_body]
  simp only [tokenBody]
  have hL := tokenParse_length (tsBytes ts) nonce (tokenCt P k nonce p)
    (P.mac k.sign (VERSION :: tsBytes ts ++ nonce ++ tokenCt P k nonce p))
    h8 hn (hmac _)
  unfold openTok
  rw [hL]
  rw [if_neg (by simp only [BLOCK_SIZE]; omega)]
  rw [tokenParse_headD]
  rw [if_neg (by simp)]
  have e1 : 57 + (tokenCt P k nonce p).length - 32 =
      25 + (tokenCt P k nonce p).length := by omega
  have e2 : 57 + (tokenCt P k nonce p).length - 57 =
      (tokenCt P k nonce p).length := by omega
  rw [e1, e2]
  rw [tokenParse_take _ _ _ _ h8 hn, tokenParse_drop _ _ _ _ h8 hn]
  rw [if_neg (by simp)]
  rw [tokenParse_nonce _ _ _ _ h8 hn, tokenParse_ct _ _ _ _ h8 hn]
  have hchunks : chunks (tokenCt P k nonce p) =
      cbcEnc P k.enc nonce (chunks (pad p)) :=
    chunks_flatten_blocks _
      (cbcEnc_mem_length P k.enc nonce _ hlen hn
        (chunks_mem_length _ (pad_length_mod p)))
  dsimp only
  rw [hchunks,
    cbcDec_cbcEnc P k.enc nonce _ hdec hlen hn
      (chunks_mem_length _ (pad_length_mod p)),
    flatten_chunks, unpad_pad]

theorem openTok_sealTok_wrong_mac (P : Primitives) (k1 k2 : Key) (ts : Nat)
    (nonce p : List Nat)
    (hlen1 : ∀ b, b.length = 16 → (P.encBlock k1.enc b).length = 16)
    (hmac1 : ∀ m, (P.mac k1.sign m).length = 32)
    (hn : nonce.length = 16)
    (hdiff : P.mac k2.sign (tokenBody P k1 ts nonce p) ≠
      P.mac k1.sign (tokenBody P k1 ts nonce p)) :
    openTok P k2 (sealTok P k1 ts nonce p) = .error .AuthenticationError := by
  have h8 := tsBytes_length ts
  have hctmod : (tokenCt P k1 nonce p).length % 16 = 0 := by
    rw [tokenCt_length P k1 nonce p hlen1 hn]; exact pad_length_mod p
  simp only [tokenBody] at hdiff
  rw [sealTok_eq_body]
  simp only [tokenBody]
  have hL := tokenParse_length (tsBytes ts) nonce (tokenCt P k1 nonce p)
    (P.mac k1.sign (VERSION :: tsBytes ts ++ nonce ++ tokenCt P k1 nonce p))
    h8 hn (hmac1 _)
  unfold openTok
  rw [hL]
  rw [if_neg (by simp only [BLOCK_SIZE]; omega)]
  rw [tokenParse_headD]
  rw [if_neg (by simp)]
  have e1 : 57 + (tokenCt P k1 nonce p).length - 32 =
      25 + (tokenCt P k1 nonce p).length := by omega
  rw [e1]
  rw [tokenParse_take _ _ _ _ h8 hn, tokenParse_drop _ _ _ _ h8 hn]
  rw [if_pos hdiff]

theorem toy_dec_enc (ek b : List Nat) (hek : ek.length = 16)
    (hb : b.length = 16) :
    toyPrims.decBlock ek (toyPrims.encBlock ek b) = b := by
  simp only [toyPrims]
  exact xorBytes_self_cancel ek b (by omega)

theorem toy_encBlock_length (ek b : List Nat) (hek : ek.length = 16)
    (hb : b.length = 16) : (toyPrims.encBlock ek b).length = 16 := by
  simp only [toyPrims]
  rw [xorBytes_length, hek, hb]
  omega

theorem toy_mac_length (sk m : List Nat) : (toyPrims.mac sk m).length = 32 := by
  simp [toyPrims]

/-- A fixed 32-byte test key blob and the key it splits into. -/
def kb0 : List Nat :=
  [1, 2, 3, 4, 5, 6, 7, 8, 9, 10, 11, 12, 13, 14, 15, 16,
   21, 22, 23, 24, 25, 26, 27, 28, 29, 30, 31, 32, 33, 34, 35, 36]

def k0 : Key := ⟨kb0.take 16, kb0.drop 16⟩

/-- A second, distinct test key. -/
def k1 : Key :=
  ⟨[61, 62, 63, 64, 65, 66, 67, 68, 69, 70, 71, 72, 73, 74, 75, 76],
   [81, 82, 83, 84, 85, 86, 87, 88, 89, 90, 91, 92, 93, 94, 95, 96]⟩

/-- A fixed 16-byte test nonce, and a second distinct one. -/
def nonce0 : List Nat :=
  [41, 42, 43, 44, 45, 46, 47, 48, 49, 50, 51, 52, 53, 54, 55, 56]

def nonce1 : List Nat :=
  [141, 142, 143, 144, 145, 146, 147, 148, 149, 150, 151, 152, 153, 154,
   155, 156]

/-- The 3-byte PNG magic-number fragment of the spec's concrete scenario. -/
def p0 : List Nat := [137, 80, 78]

theorem flipBit_length (i : Nat) (t : List Nat) :
    (flipBit i t).length = t.length := by
  simp [flipBit]

theorem flipBit_getElem_self (i : Nat) (t : List Nat) (h : i / 8 < t.length) :
    (flipBit i t)[i / 8]? = some (t.getD (i / 8) 0 ^^^ 2 ^ (i % 8)) := by
  simp only [flipBit]
  exact List.getElem?_set_self h

theorem flipBit_getElem_ne (i j : Nat) (t : List Nat) (h : i / 8 ≠ j) :
    (flipBit i t)[j]? = t[j]? := by
  simp [flipBit, List.getElem?_set, h]

theorem getElem?_eq_some_getD (t : List Nat) (j : Nat) (h : j < t.length) :
    t[j]? = some (t.getD j 0) := by
  rw [List.getD_eq_getElem?_getD, List.getElem?_eq_getElem h]
  rfl

/-- How `open` behaves on a single-bit corruption of a well-formed token
`B ++ tag` whose tag is the MAC of `B`: a flip inside the version byte is
rejected as `FormatError`; any other flip is rejected as
`AuthenticationError`, unconditionally for flips inside the tag and given
MAC collision-freedom at this point for flips inside the body. -/
theorem openTok_flipBit_general (P : Primitives) (k : Key)
    (t B tag2 : List Nat) (i : Nat)
    (hB : t = B ++ tag2)
    (htag : tag2 = P.mac k.sign B)
    (hBlen : B.length = t.length - 32)
    (hhead : B[0]? = some VERSION)
    (hL57 : 57 ≤ t.length) (hLmod : (t.length - 57) % 16 = 0)
    (h32 : tag2.length = 32)
    (hi : i < 8 * t.length)
    (hcoll : 1 ≤ i / 8 → i / 8 < t.length - 32 →
      P.mac k.sign ((flipBit i t).take (t.length - 32)) ≠ P.mac k.sign B) :
    openTok P k (flipBit i t) =
      .error (if i / 8 = 0 then .FormatError else .AuthenticationError) := by
  have hflen : (flipBit i t).length = t.length := flipBit_length i t
  have hj : i / 8 < t.length := by omega
  have htakeB : t.take (t.length - 32) = B := by
    rw [← hBlen, hB]
    exact List.take_left _ _
  have hdropT : t.drop (t.length - 32) = tag2 := by
    rw [← hBlen, hB]
    exact List.drop_left _ _
  have hold : t[0]? = some VERSION := by
    rw [hB, List.getElem?_append_left, hhead]
    omega
  unfold openTok
  rw [hflen]
  rw [if_neg (by simp only [BLOCK_SIZE]; omega)]
  by_cases h0 : i / 8 = 0
  · have hnew : (flipBit i t)[0]? = some (VERSION ^^^ 2 ^ (i % 8)) := by
      have := flipBit_getElem_self i t hj
      rw [h0] at this
      rw [this]
      have hD : t.getD 0 0 = VERSION := by
        rw [List.getD_eq_getElem?_getD, hold]
        rfl
      rw [hD]
    have hhd : (flipBit i t).headD 0 = VERSION ^^^ 2 ^ (i % 8) := by
      rw [List.headD_eq_head?, List.head?_eq_getElem?, hnew]
      rfl
    rw [hhd, if_pos (xor_pow_ne_self VERSION (i % 8)), if_pos h0]
  · have hhd : (flipBit i t).headD 0 = VERSION := by
      rw [List.headD_eq_head?, List.head?_eq_getElem?,
        flipBit_getElem_ne i 0 t h0, hold]
      rfl
    rw [if_neg (by rw [hhd]; simp), if_neg h0]
    by_cases hjlt : i / 8 < t.length - 32
    · have hdropeq : (flipBit i t).drop (t.length - 32) =
          t.drop (t.length - 32) := by
        simp only [flipBit]
        rw [List.drop_set, if_pos hjlt]
      rw [hdropeq, hdropT, htag]
      rw [if_pos (hcoll (by omega) hjlt)]
    · have htakeEq : (flipBit i t).take (t.length - 32) = B := by
        simp only [flipBit]
        rw [List.set_take, htakeB]
        refine List.set_eq_of_length_le ?_
        rw [← htakeB]
        have : (t.take (t.length - 32)).length ≤ t.length - 32 := by
          simp [List.length_take]
        omega
      have hdroplen : (t.drop (t.length - 32)).length = 32 := by
        rw [hdropT, h32]
      have hdropne : (flipBit i t).drop (t.length - 32) ≠
          t.drop (t.length - 32) := by
        simp only [flipBit]
        rw [List.drop_set, if_neg (by omega)]
        intro hc
        have hidx : i / 8 - (t.length - 32) < (t.drop (t.length - 32)).length := by
          rw [hdroplen]
          omega
        have h1 := congrArg (fun l => l[i / 8 - (t.length - 32)]?) hc
        simp only at h1
        rw [List.getElem?_set_self hidx] at h1
        rw [List.getElem?_drop] at h1
        have harith : t.length - 32 + (i / 8 - (t.length - 32)) = i / 8 := by
          omega
        rw [harith, getElem?_eq_some_getD t (i / 8) hj] at h1
        have := Option.some.inj h1
        exact xor_pow_ne_self (t.getD (i / 8) 0) (i % 8) this
      have hfinal : P.mac k.sign ((flipBit i t).take (t.length - 32)) ≠
          (flipBit i t).drop (t.length - 32) := by
        rw [htakeEq]
        intro hc
        exact hdropne (hc.symm.trans (hdropT.trans htag).symm)
      rw [if_pos hfinal]

set_option maxRecDepth 8000

/-- C1.  Round-trip: for every valid key and every byte buffer (including
the empty buffer), opening the token produced by sealing the buffer under
the same key returns exactly the original plaintext.  The block cipher and
MAC are abstract; the hypotheses state the block cipher inverts on 16-byte
blocks and preserves their length, and the MAC produces 32-byte tags. -/
theorem round_trip_spec (P : Primitives) (k : Key) (ts : Nat)
    (nonce p : List Nat)
    (hk : k.Valid)
    (hdec : ∀ b, b.length = 16 → P.decBlock k.enc (P.encBlock k.enc b) = b)
    (hlen : ∀ b, b.length = 16 → (P.encBlock k.enc b).length = 16)
    (hmac : ∀ m, (P.mac k.sign m).length = 32)
    (hn : nonce.length = 16) :
    openTok P k (sealTok P k ts nonce p) = .ok p :=
  openTok_sealTok P k ts nonce p hdec hlen hmac hn

/-- Witness for C1 at the spec's concrete scenario: the 3-byte PNG fragment
under the fixed test key, and also the empty buffer. -/
theorem round_trip_spec_witness :
    openTok toyPrims k0 (sealTok toyPrims k0 7 nonce0 p0) = .ok p0 ∧
    openTok toyPrims k0 (sealTok toyPrims k0 7 nonce0 []) = .ok [] :=
  ⟨round_trip_spec toyPrims k0 7 nonce0 p0 (by decide)
      (fun b hb => toy_dec_enc k0.enc b (by decide) hb)
      (fun b hb => toy_encBlock_length k0.enc b (by decide) hb)
      (fun m => toy_mac_length k0.sign m) (by decide),
    round_trip_spec toyPrims k0 7 nonce0 [] (by decide)
      (fun b hb => toy_dec_enc k0.enc b (by decide) hb)
      (fun b hb => toy_encBlock_length k0.enc b (by decide) hb)
      (fun m => toy_mac_length k0.sign m) (by decide)⟩

/-- C2 — counterexample to the claim as stated: flipping bit 0 of a valid
token flips a bit of the version byte, and `open` then fails with
`FormatError`, not `AuthenticationError`. -/
theorem tamper_detection_counterexample :
    openTok toyPrims k0 (flipBit 0 (sealTok toyPrims k0 7 nonce0 p0)) =
      .error .FormatError ∧
    openTok toyPrims k0 (flipBit 0 (sealTok toyPrims k0 7 nonce0 p0)) ≠
      .error .AuthenticationError := by
  exact ⟨by decide, by decide⟩

/-- C2 (amended).  Flipping any single bit of a valid token makes `open`
fail closed with no plaintext: a flip inside the version byte (byte 0)
fails with `FormatError`; a flip in any other byte fails with
`AuthenticationError` — unconditionally for flips inside the tag field,
and for flips inside the authenticated header under the hypothesis that
the MAC of the altered header differs from the MAC of the original (MAC
collision-freedom at this input). -/
theorem tamper_detection_amended (P : Primitives) (k : Key) (ts : Nat)
    (nonce p : List Nat) (i : Nat)
    (hk : k.Valid)
    (hlen : ∀ b, b.length = 16 → (P.encBlock k.enc b).length = 16)
    (hmac : ∀ m, (P.mac k.sign m).length = 32)
    (hn : nonce.length = 16)
    (hi : i < 8 * (sealTok P k ts nonce p).length)
    (hcoll : 1 ≤ i / 8 → i / 8 < (sealTok P k ts nonce p).length - 32 →
      P.mac k.sign ((flipBit i (sealTok P k ts nonce p)).take
          ((sealTok P k ts nonce p).length - 32)) ≠
        P.mac k.sign (tokenBody P k ts nonce p)) :
    openTok P k (flipBit i (sealTok P k ts nonce p)) =
      .error (if i / 8 = 0 then .FormatError else .AuthenticationError) ∧
    ∀ q, openTok P k (flipBit i (sealTok P k ts nonce p)) ≠ .ok q := by
  have hL : (sealTok P k ts nonce p).length =
      57 + (tokenCt P k nonce p).length := by
    rw [sealTok_eq_body]
    simp only [tokenBody]
    exact tokenParse_length _ _ _ _ (tsBytes_length ts) hn (hmac _)
  have hBlen : (tokenBody P k ts nonce p).length =
      (sealTok P k ts nonce p).length - 32 := by
    rw [tokenBody_length P k ts nonce p hn, hL]
    omega
  have hmod : (tokenCt P k nonce p).length % 16 = 0 :=
    tokenCt_length_mod P k nonce p hlen hn
  have hmain := openTok_flipBit_general P k (sealTok P k ts nonce p)
    (tokenBody P k ts nonce p) (P.mac k.sign (tokenBody P k ts nonce p)) i
    (sealTok_eq_body P k ts nonce p) rfl hBlen
    (by simp [tokenBody]) (by omega) (by omega) (hmac _) hi hcoll
  exact ⟨hmain, fun q hq => by rw [hmain] at hq; exact Except.noConfusion hq⟩

/-- Witness for C2 (amended) at a flip inside the nonce field (bit 80,
byte 10) of the concrete test token. -/
theorem tamper_detection_amended_witness :
    openTok toyPrims k0 (flipBit 80 (sealTok toyPrims k0 7 nonce0 p0)) =
      .error (if 80 / 8 = 0 then CipherError.FormatError
        else CipherError.AuthenticationError) ∧
    ∀ q, openTok toyPrims k0 (flipBit 80 (sealTok toyPrims k0 7 nonce0 p0)) ≠
      .ok q :=
  tamper_detection_amended toyPrims k0 7 nonce0 p0 80 (by decide)
    (fun b hb => toy_encBlock_length k0.enc b (by decide) hb)
    (fun m => toy_mac_length k0.sign m) (by decide) (by decide)
    (fun h1 h2 => by decide)

/-- C3.  Wrong key rejection: opening a token sealed under one key with a
different key fails with `AuthenticationError` and returns no plaintext,
under the hypothesis that the two keys' MACs disagree on this token's
header (MAC collision-freedom across keys at this input). -/
theorem wrong_key_rejection (P : Primitives) (k1 k2 : Key) (ts : Nat)
    (nonce p : List Nat)
    (hne : k1 ≠ k2)
    (hlen1 : ∀ b, b.length = 16 → (P.encBlock k1.enc b).length = 16)
    (hmac1 : ∀ m, (P.mac k1.sign m).length = 32)
    (hn : nonce.length = 16)
    (hdiff : P.mac k2.sign (tokenBody P k1 ts nonce p) ≠
      P.mac k1.sign (tokenBody P k1 ts nonce p)) :
    openTok P k2 (sealTok P k1 ts nonce p) = .error .AuthenticationError ∧
    ∀ q, openTok P k2 (sealTok P k1 ts nonce p) ≠ .ok q := by
  have h := openTok_sealTok_wrong_mac P k1 k2 ts nonce p hlen1 hmac1 hn hdiff
  exact ⟨h, fun q hq => by rw [h] at hq; exact Except.noConfusion hq⟩

/-- Witness for C3 at the two concrete distinct test keys. -/
theorem wrong_key_rejection_witness :
    openTok toyPrims k1 (sealTok toyPrims k0 7 nonce0 p0) =
      .error .AuthenticationError ∧
    ∀ q, openTok toyPrims k1 (sealTok toyPrims k0 7 nonce0 p0) ≠ .ok q :=
  wrong_key_rejection toyPrims k0 k1 7 nonce0 p0 (by decide)
    (fun b hb => toy_encBlock_length k0.enc b (by decide) hb)
    (fun m => toy_mac_length k0.sign m) (by decide) (by decide)

/-- C4.  Format rejection: a token whose version byte is not the scheme's
declared version fails with `FormatError`, an error kind distinct from
`AuthenticationError`.  The statement is quantified over arbitrary
primitives `P`, so the result provably does not depend on the MAC or the
block cipher: no HMAC verification or decryption is performed. -/
theorem format_rejection (P : Primitives) (k : Key) (t : List Nat)
    (hv : t.headD 0 ≠ VERSION) :
    openTok P k t = .error .FormatError ∧
    CipherError.FormatError ≠ CipherError.AuthenticationError := by
  refine ⟨?_, by decide⟩
  unfold openTok
  by_cases hs : t.length < 57 ∨ (t.length - 57) % BLOCK_SIZE ≠ 0
  · rw [if_pos hs]
  · rw [if_neg hs, if_pos hv]

/-- Witness for C4: a token whose version byte is 0 (here obtained by
zeroing the version byte of a valid test token). -/
theorem format_rejection_witness :
    openTok toyPrims k0
      ((sealTok toyPrims k0 7 nonce0 p0).set 0 0) = .error .FormatError ∧
    CipherError.FormatError ≠ CipherError.AuthenticationError :=
  format_rejection toyPrims k0 ((sealTok toyPrims k0 7 nonce0 p0).set 0 0)
    (by decide)

/-- C5.  Key persistence and idempotence: a second call to the key store
returns the same key bytes as the first and leaves the store unchanged; on
an empty store the first call persists the freshly generated key, and on a
populated store it returns the persisted bytes and does not modify the
store. -/
theorem key_persistence (fresh1 fresh2 : List Nat) (s : Option (List Nat)) :
    (get_or_create_key fresh2 (get_or_create_key fresh1 s).2).1 =
      (get_or_create_key fresh1 s).1 ∧
    (get_or_create_key fresh2 (get_or_create_key fresh1 s).2).2 =
      (get_or_create_key fresh1 s).2 ∧
    (s = none → get_or_create_key fresh1 s = (fresh1, some fresh1)) ∧
    (∀ kb, s = some kb → get_or_create_key fresh1 s = (kb, s)) := by
  rcases s with _ | kb <;> simp [get_or_create_key]

/-- Witness for C5 at a concrete fresh key and both store states. -/
theorem key_persistence_witness :
    (get_or_create_key [5] (get_or_create_key kb0 none).2).1 =
      (get_or_create_key kb0 none).1 ∧
    (get_or_create_key [5] (get_or_create_key kb0 none).2).2 =
      (get_or_create_key kb0 none).2 ∧
    (none = (none : Option (List Nat)) →
      get_or_create_key kb0 none = (kb0, some kb0)) ∧
    (∀ kb, (none : Option (List Nat)) = some kb →
      get_or_create_key kb0 none = (kb, none)) :=
  key_persistence kb0 [5] none

/-- C6.  Non-determinism of seal: sealing the same plaintext under the same
key with two distinct fresh nonces yields different token byte strings, and
both tokens still open to the original plaintext. -/
theorem seal_nondeterminism (P : Primitives) (k : Key) (ts1 ts2 : Nat)
    (n1 n2 p : List Nat)
    (hk : k.Valid)
    (hdec : ∀ b, b.length = 16 → P.decBlock k.enc (P.encBlock k.enc b) = b)
    (hlen : ∀ b, b.length = 16 → (P.encBlock k.enc b).length = 16)
    (hmac : ∀ m, (P.mac k.sign m).length = 32)
    (h1 : n1.length = 16) (h2 : n2.length = 16) (hne : n1 ≠ n2) :
    sealTok P k ts1 n1 p ≠ sealTok P k ts2 n2 p ∧
    openTok P k (sealTok P k ts1 n1 p) = .ok p ∧
    openTok P k (sealTok P k ts2 n2 p) = .ok p := by
  refine ⟨?_, openTok_sealTok P k ts1 n1 p hdec hlen hmac h1,
    openTok_sealTok P k ts2 n2 p hdec hlen hmac h2⟩
  intro hc
  apply hne
  have e1 : ((sealTok P k ts1 n1 p).drop 9).take 16 = n1 := by
    rw [sealTok_eq_body]
    simp only [tokenBody]
    exact tokenParse_nonce _ _ _ _ (tsBytes_length ts1) h1
  have e2 : ((sealTok P k ts2 n2 p).drop 9).take 16 = n2 := by
    rw [sealTok_eq_body]
    simp only [tokenBody]
    exact tokenParse_nonce _ _ _ _ (tsBytes_length ts2) h2
  rw [← e1, ← e2, hc]

/-- Witness for C6 at two concrete distinct nonces. -/
theorem seal_nondeterminism_witness :
    sealTok toyPrims k0 7 nonce0 p0 ≠ sealTok toyPrims k0 9 nonce1 p0 ∧
    openTok toyPrims k0 (sealTok toyPrims k0 7 nonce0 p0) = .ok p0 ∧
    openTok toyPrims k0 (sealTok toyPrims k0 9 nonce1 p0) = .ok p0 :=
  seal_nondeterminism toyPrims k0 7 9 nonce0 nonce1 p0 (by decide)
    (fun b hb => toy_dec_enc k0.enc b (by decide) hb)
    (fun b hb => toy_encBlock_length k0.enc b (by decide) hb)
    (fun m => toy_mac_length k0.sign m) (by decide) (by decide) (by decide)

/-- C7.  Token wire format: a sealed token is the raw concatenation
`version(1) ‖ timestamp(8, big-endian) ‖ nonce(16) ‖ ciphertext ‖ tag(32)`,
the ciphertext is block-aligned (the PKCS7-padded plaintext's length), the
version byte is the scheme's declared version, and for a 3-byte plaintext
the ciphertext field is exactly one 16-byte block. -/
theorem token_wire_format (P : Primitives) (k : Key) (ts : Nat)
    (nonce p : List Nat)
    (hk : k.Valid)
    (hlen : ∀ b, b.length = 16 → (P.encBlock k.enc b).length = 16)
    (hmac : ∀ m, (P.mac k.sign m).length = 32)
    (hn : nonce.length = 16) :
    sealTok P k ts nonce p =
      [VERSION] ++ tsBytes ts ++ nonce ++ tokenCt P k nonce p ++
        P.mac k.sign (tokenBody P k ts nonce p) ∧
    (tsBytes ts).length = 8 ∧
    nonce.length = 16 ∧
    (tokenCt P k nonce p).length % BLOCK_SIZE = 0 ∧
    (tokenCt P k nonce p).length = (pad p).length ∧
    (P.mac k.sign (tokenBody P k ts nonce p)).length = 32 ∧
    (sealTok P k ts nonce p).headD 0 = VERSION ∧
    (p.length = 3 → (tokenCt P k nonce p).length = BLOCK_SIZE) := by
  refine ⟨?_, tsBytes_length ts, hn, ?_, tokenCt_length P k nonce p hlen hn,
    hmac _, ?_, ?_⟩
  · rw [sealTok_eq_body]
    simp [tokenBody, List.append_assoc]
  · simp only [BLOCK_SIZE]
    exact tokenCt_length_mod P k nonce p hlen hn
  · rw [sealTok_eq_body]
    simp only [tokenBody]
    exact tokenParse_headD _ _ _ _
  · intro hp
    rw [tokenCt_length P k nonce p hlen hn, pad_length, hp]
    simp [padLen, BLOCK_SIZE]

/-- Witness for C7 at the spec's concrete scenario (3-byte PNG fragment). -/
theorem token_wire_format_witness :
    sealTok toyPrims k0 7 nonce0 p0 =
      [VERSION] ++ tsBytes 7 ++ nonce0 ++ tokenCt toyPrims k0 nonce0 p0 ++
        toyPrims.mac k0.sign (tokenBody toyPrims k0 7 nonce0 p0) ∧
    (tsBytes 7).length = 8 ∧
    nonce0.length = 16 ∧
    (tokenCt toyPrims k0 nonce0 p0).length % BLOCK_SIZE = 0 ∧
    (tokenCt toyPrims k0 nonce0 p0).length = (pad p0).length ∧
    (toyPrims.mac k0.sign (tokenBody toyPrims k0 7 nonce0 p0)).length = 32 ∧
    (sealTok toyPrims k0 7 nonce0 p0).headD 0 = VERSION ∧
    (p0.length = 3 → (tokenCt toyPrims k0 nonce0 p0).length = BLOCK_SIZE) :=
  token_wire_format toyPrims k0 7 nonce0 p0 (by decide)
    (fun b hb => toy_encBlock_length k0.enc b (by decide) hb)
    (fun m => toy_mac_length k0.sign m) (by decide)

/-- C8.  Corrupt key detection: when the persisted key blob has the wrong
length for a key, obtaining the cipher signals `CorruptKeyError` (distinct
from `StorageError`), any subsequent decryption aborts with that same
error, and the store is left exactly as it was — no automatic repair. -/
theorem corrupt_key_detection (P : Primitives) (fresh kb t : List Nat)
    (hbad : kb.length ≠ 32) :
    getCipherKey fresh (some kb) = (.error .CorruptKeyError, some kb) ∧
    decryptWithStore P fresh (some kb) t =
      (.error .CorruptKeyError, some kb) ∧
    CipherError.CorruptKeyError ≠ CipherError.StorageError := by
  refine ⟨?_, ?_, by decide⟩ <;>
    simp [getCipherKey, get_or_create_key, decryptWithStore, hbad]

/-- Witness for C8 at a 3-byte (invalid) persisted key blob. -/
theorem corrupt_key_detection_witness :
    getCipherKey kb0 (some [1, 2, 3]) =
      (.error .CorruptKeyError, some [1, 2, 3]) ∧
    decryptWithStore toyPrims kb0 (some [1, 2, 3]) p0 =
      (.error .CorruptKeyError, some [1, 2, 3]) ∧
    CipherError.CorruptKeyError ≠ CipherError.StorageError :=
  corrupt_key_detection toyPrims kb0 [1, 2, 3] p0 (by decide)

/-- C9 (implicit).  Running the decryption path with no key file present
first generates and persists a brand-new key as a side effect of obtaining
the cipher, and then decryption of a token sealed under the original key
fails with `AuthenticationError` under the fresh key (given the fresh key's
MAC disagrees with the sealing key's on this token), rather than reporting
a missing key. -/
theorem decrypt_missing_key_side_effect (P : Primitives)
    (fresh : List Nat) (k1 : Key) (ts : Nat) (nonce p : List Nat)
    (hfresh : fresh.length = 32)
    (hlen1 : ∀ b, b.length = 16 → (P.encBlock k1.enc b).length = 16)
    (hmac1 : ∀ m, (P.mac k1.sign m).length = 32)
    (hn : nonce.length = 16)
    (hdiff : P.mac (fresh.take 16) (tokenBody P k1 ts nonce p) ≠
      P.mac k1.sign (tokenBody P k1 ts nonce p)) :
    decryptWithStore P fresh none (sealTok P k1 ts nonce p) =
      (.error .AuthenticationError, some fresh) := by
  have h := openTok_sealTok_wrong_mac P k1 ⟨fresh.take 16, fresh.drop 16⟩
    ts nonce p hlen1 hmac1 hn hdiff
  simp [decryptWithStore, getCipherKey, get_or_create_key, hfresh, h]

/-- Witness for C9: decrypting the concrete test token with an empty key
store persists the fresh 32-byte blob and fails authentication. -/
theorem decrypt_missing_key_side_effect_witness :
    decryptWithStore toyPrims
      (k1.sign ++ k1.enc) none (sealTok toyPrims k0 7 nonce0 p0) =
      (.error .AuthenticationError, some (k1.sign ++ k1.enc)) :=
  decrypt_missing_key_side_effect toyPrims (k1.sign ++ k1.enc) k0 7 nonce0 p0
    (by decide)
    (fun b hb => toy_encBlock_length k0.enc b (by decide) hb)
    (fun m => toy_mac_length k0.sign m) (by decide) (by decide)

/-- C10 (implicit).  The GUI wrappers never let a failure escape and never
write a partial result: every run of `encrypt_file` / `decrypt_file` ends in
a normal return (cancelled, success dialog, or error dialog); cancelling the
source dialog returns silently with the key store untouched; cancelling the
destination dialog returns without writing; and a destination file is
written (a `success` outcome) only when reading, obtaining the cipher, and
the cryptographic operation itself all succeeded. -/
theorem gui_no_escape_no_partial_output (P : Primitives) (env : GuiEnv)
    (fresh : List Nat) (ts : Nat) (nonce : List Nat)
    (store : Option (List Nat)) :
    (env.srcChoice = none →
      encrypt_file P env fresh ts nonce store = (.cancelled, store) ∧
      decrypt_file P env fresh store = (.cancelled, store)) ∧
    (env.dstChoice = none → ∀ w,
      (encrypt_file P env fresh ts nonce store).1 ≠ .success w ∧
      (decrypt_file P env fresh store).1 ≠ .success w) ∧
    (∀ w, (encrypt_file P env fresh ts nonce store).1 = .success w →
      ∃ data key, env.srcChoice = some (.ok data) ∧
        (getCipherKey fresh store).1 = .ok key ∧
        w = sealTok P key ts nonce data ∧
        env.dstChoice ≠ none ∧ env.writeRes = .ok ()) ∧
    (∀ w, (decrypt_file P env fresh store).1 = .success w →
      ∃ data key, env.srcChoice = some (.ok data) ∧
        (getCipherKey fresh store).1 = .ok key ∧
        openTok P key data = .ok w ∧
        env.dstChoice ≠ none ∧ env.writeRes = .ok ()) := by
  obtain ⟨src, dst, wr⟩ := env
  rcases hgk : getCipherKey fresh store with ⟨r, s1⟩
  refine ⟨?_, ?_, ?_, ?_⟩
  · rintro rfl
    simp [encrypt_file, decrypt_file]
  · rintro rfl w
    rcases src with _ | rd
    · simp [encrypt_file, decrypt_file]
    rcases rd with e | data
    · simp [encrypt_file, decrypt_file]
    rcases r with e2 | key
    · simp [encrypt_file, decrypt_file, hgk]
    · constructor
      · simp [encrypt_file, hgk]
      · rcases hop : openTok P key data with e3 | q <;>
          simp [decrypt_file, hgk, hop]
  · intro w hw
    rcases src with _ | rd
    · simp [encrypt_file] at hw
    rcases rd with e | data
    · simp [encrypt_file] at hw
    rcases r with e2 | key
    · simp [encrypt_file, hgk] at hw
    rcases dst with _ | u
    · simp [encrypt_file, hgk] at hw
    rcases wr with we | wu
    · simp [encrypt_file, hgk] at hw
    · simp only [encrypt_file, hgk] at hw
      refine ⟨data, key, rfl, rfl, ?_, by simp, rfl⟩
      simpa using hw.symm
  · intro w hw
    rcases src with _ | rd
    · simp [decrypt_file] at hw
    rcases rd with e | data
    · simp [decrypt_file] at hw
    rcases r with e2 | key
    · simp [decrypt_file, hgk] at hw
    rcases hop : openTok P key data with e3 | q
    · simp [decrypt_file, hgk, hop] at hw
    rcases dst with _ | u
    · simp [decrypt_file, hgk, hop] at hw
    rcases wr with we | wu
    · simp [decrypt_file, hgk, hop] at hw
    · simp only [decrypt_file, hgk, hop] at hw
      refine ⟨data, key, rfl, rfl, ?_, by simp, rfl⟩
      have hqw : q = w := by injection hw
      rw [hop, hqw]

/-- A concrete GUI environment: a readable source file holding the test
plaintext, a chosen destination, and a successful write. -/
def env0 : GuiEnv := ⟨some (.ok p0), some (), .ok ()⟩

/-- Witness for C10 at the concrete environment `env0` with an empty key
store. -/
theorem gui_no_escape_no_partial_output_witness :
    (env0.srcChoice = none →
      encrypt_file toyPrims env0 kb0 7 nonce0 none = (.cancelled, none) ∧
      decrypt_file toyPrims env0 kb0 none = (.cancelled, none)) ∧
    (env0.dstChoice = none → ∀ w,
      (encrypt_file toyPrims env0 kb0 7 nonce0 none).1 ≠ .success w ∧
      (decrypt_file toyPrims env0 kb0 none).1 ≠ .success w) ∧
    (∀ w, (encrypt_file toyPrims env0 kb0 7 nonce0 none).1 = .success w →
      ∃ data key, env0.srcChoice = some (.ok data) ∧
        (getCipherKey kb0 none).1 = .ok key ∧
        w = sealTok toyPrims key 7 nonce0 data ∧
        env0.dstChoice ≠ none ∧ env0.writeRes = .ok ()) ∧
    (∀ w, (decrypt_file toyPrims env0 kb0 none).1 = .success w →
      ∃ data key, env0.srcChoice = some (.ok data) ∧
        (getCipherKey kb0 none).1 = .ok key ∧
        openTok toyPrims key data = .ok w ∧
        env0.dstChoice ≠ none ∧ env0.writeRes = .ok ()) :=
  gui_no_escape_no_partial_output toyPrims env0 kb0 7 nonce0 none
